import Mathlib

/-!
Verification of the core search engine of cdbexplore (`src/cdbsearch.py`):
a shallow embedding of the scored-moves records, the transposition table,
the `queryall` retry protocol, the `move_depth` policy and the scheduling
loop of `search`, together with theorems settling the specification claims.
-/

set_option autoImplicit false

namespace Cdbexplore

/-! ## Constants (conventions on chessdb.cn, from the top of cdbsearch.py) -/

def CDB_MATE : Int := 30000

def CDB_TBWIN : Int := 25000

def CDB_CURSED : Int := 20000

def CDB_SPECIAL : Int := 10000

def CDB_EGTB : Nat := 7

def CDB_SIEVED : Nat := 5

def depthForceQuery : Int := 10

def depthAllowExts : Int := 4

def depthMaxExtension : Int := 10

def depthUnscored : Int := 25

def depthReprobePV : Int := 16

def percentReprobePV : Int := 1

/-! ## Scored-moves records

A `queryall` result / TT entry in the Python source is a dict mixing the
`"depth"` key (an int) with UCI-move keys mapped to centipawn scores.  We
model it as a record with an optional `depth` field (the `"invalid board"`
sentinel `{}` has no `"depth"` key) and an association list of move scores. -/

structure ScoredMoves where
  depth : Option Int := none
  moves : List (String × Int) := []
deriving DecidableEq

/-! ## Transposition table (`AtomicTT.set`, cdbsearch.py lines 33-39)

`set` reads the existing entry; if present it evaluates `value["depth"]`
and `result["depth"]`, each of which raises `KeyError` when the key is
missing (modelled by `Except.error ()`).  It returns the new cache state
together with the value the Python method returns. -/

def ttSet (cache : Option ScoredMoves) (result : ScoredMoves) :
    Except Unit (Option ScoredMoves × ScoredMoves) :=
  match cache with
  | none => .ok (some result, result)
  | some value =>
    match value.depth with
    | none => .error ()
    | some vd =>
      match result.depth with
      | none => .error ()
      | some rd =>
        if vd ≤ rd then .ok (some result, result) else .ok (some value, value)

/-- The depth of a record, defaulting to 0 (used only under `isSome` hypotheses). -/
def depthOf (r : ScoredMoves) : Int := r.depth.getD 0

/-- Iterated `ttSet` over a list of records (a sequence of `TT.set` calls for one epd). -/
def ttSetList (cache : Option ScoredMoves) : List ScoredMoves → Except Unit (Option ScoredMoves)
  | [] => .ok cache
  | r :: rs =>
    match ttSet cache r with
    | .ok (cache', _) => ttSetList cache' rs
    | .error e => .error e

/-- Maximum of `depthOf` over a fold, starting from `d`. -/
def maxDepthFrom (d : Int) (rs : List ScoredMoves) : Int :=
  rs.foldl (fun a x => max a (depthOf x)) d

/-- Maximum depth over a nonempty list of records (matches the claim's
"maximum depth over all records ever set"). -/
def maxDepth : List ScoredMoves → Int
  | [] => 0
  | r :: rs => maxDepthFrom (depthOf r) rs

/-! ## Score adjustment in `queryall`'s "ok" branch (cdbsearch.py lines 314-323) -/

def scoreAdjust (cursedWins : Bool) (s : Int) : Int :=
  if CDB_SPECIAL ≤ |s| then
    if !cursedWins && |s| ≤ CDB_CURSED then 0
    else s + (if 0 ≤ s then 1 else -1)
  else s

/-! ## The `move_depth` policy (cdbsearch.py lines 355-359)

Python's `//` is floor division, `Int.fdiv` in Lean. -/

def move_depth (evalDecay bestscore worstscore : Int) (score : Option Int) (depth : Int) : Int :=
  let delta := match score with
    | some s => s - bestscore
    | none => worstscore - bestscore
  let decay := if evalDecay ≠ 0 then Int.fdiv delta evalDecay else 10 ^ 6 * delta
  match score with
  | some _ => depth + decay - 1
  | none => min 0 (depth + decay - 2)

/-! ## The `queryall` retry protocol (cdbsearch.py lines 226-344)

The network is modelled by a list of server replies; each loop iteration
consumes one.  A reply with status `"unknown"` carries the reply of the
`queue` call issued in the same iteration. -/

/-- Outcome of the `queue` API call made inside the "unknown" branch. -/
inductive QueueReply
  /-- `content is None`: the HTTP call failed. -/
  | qfail
  /-- `content == {}`: the position is not available on cdb. -/
  | qempty
  /-- any other JSON object: the position was enqueued. -/
  | qother
deriving DecidableEq

/-- One reply of the `queryall` API call, as discriminated by the loop body. -/
inductive Reply
  /-- `content is None`: the HTTP call failed. -/
  | rfail
  /-- a JSON object without a `"status"` key. -/
  | rnoStatus
  /-- status `"unknown"`, together with the reply of the ensuing `queue` call. -/
  | runknown (q : QueueReply)
  /-- status `"rate limit exceeded"` (a `clearlimit` call follows). -/
  | rrateLimit
  /-- status `"ok"` with a well-formed `moves` array of (uci, score) pairs. -/
  | rok (ms : List (String × Int))
  /-- status `"ok"` whose `moves` array raises during parsing. -/
  | rokMalformed
  /-- status `"checkmate"` or `"stalemate"`. -/
  | rmate
  /-- status `"invalid board"`. -/
  | rinvalid
  /-- any other status. -/
  | rother
deriving DecidableEq

/-- Counter increments performed by one `queryall` invocation:
`qa` = `count_queryall`, `enq` = `count_enqueued`, `unc` = `count_uncached`,
`calls` = number of `__cdbapicall` invocations (HTTP requests). -/
structure QAStats where
  qa : Nat := 0
  enq : Nat := 0
  unc : Nat := 0
  calls : Nat := 0
deriving DecidableEq

/-- Outcome of the `while not found` loop of `queryall`. -/
inductive LoopOut
  /-- the reply list was exhausted with `found` still false (the real loop
  would keep retrying forever). -/
  | outOfReplies (st : QAStats)
  /-- the loop exited with `found = True` and this `result`. -/
  | found (result : ScoredMoves) (st : QAStats)
deriving DecidableEq

/-- The `while not found` loop of `queryall` (cdbsearch.py lines 249-340),
threading the `result` accumulator, the `enqueued` flag and the counters. -/
def queryallLoop (cursedWins : Bool) (legal : List String) :
    ScoredMoves → Bool → QAStats → List Reply → LoopOut
  | _, _, st, [] => .outOfReplies st
  | result, enqueued, st, r :: rs =>
    let st1 := { st with calls := st.calls + 1 }
    match r with
    | .rfail => queryallLoop cursedWins legal result enqueued st1 rs
    | .rnoStatus => queryallLoop cursedWins legal result enqueued st1 rs
    | .runknown q =>
      let st2 := if enqueued then st1 else { st1 with enq := st1.enq + 1 }
      let st3 := { st2 with calls := st2.calls + 1 }
      match q with
      | .qfail => queryallLoop cursedWins legal result true st3 rs
      | .qempty =>
        .found { result with moves := result.moves ++ legal.map (fun u => (u, 1)) } st3
      | .qother => queryallLoop cursedWins legal result true st3 rs
    | .rrateLimit =>
      queryallLoop cursedWins legal result enqueued { st1 with calls := st1.calls + 1 } rs
    | .rok ms =>
      .found { result with
               moves := result.moves ++ ms.map (fun p => (p.1, scoreAdjust cursedWins p.2)) } st1
    | .rokMalformed => queryallLoop cursedWins legal ⟨some 0, []⟩ enqueued st1 rs
    | .rmate => .found result st1
    | .rinvalid => .found ⟨none, []⟩ st1
    | .rother => queryallLoop cursedWins legal result enqueued st1 rs

/-- Counter increments of a loop outcome. -/
def LoopOut.stats : LoopOut → QAStats
  | .outOfReplies st => st
  | .found _ st => st

/-- Outcome of a full `queryall` invocation. -/
inductive QAOut
  /-- the reply list was exhausted before `found`. -/
  | outOfReplies (st : QAStats)
  /-- the final `TT.set` raised `KeyError`. -/
  | keyError (st : QAStats)
  /-- normal return: the returned record, the TT entry for this epd after
  the call, and the counter increments. -/
  | done (ret : ScoredMoves) (ttAfter : Option ScoredMoves) (st : QAStats)
deriving DecidableEq

/-- Counter increments of an outcome. -/
def QAOut.stats : QAOut → QAStats
  | .outOfReplies st => st
  | .keyError st => st
  | .done _ _ st => st

/-- `ChessDB.queryall` (cdbsearch.py lines 226-344): `tt` is the TT entry
currently stored for this epd, `legal` the uci strings of the legal moves
of the position, `rs` the server replies. -/
def queryall (cursedWins : Bool) (tt : Option ScoredMoves) (skipTT : Bool)
    (legal : List String) (rs : List Reply) : QAOut :=
  let st0 : QAStats := { qa := 1 }
  match skipTT, tt with
  | false, some r => .done r (some r) st0
  | _, _ =>
    match queryallLoop cursedWins legal ⟨some 0, []⟩ false { st0 with unc := 1 } rs with
    | .outOfReplies st => .outOfReplies st
    | .found result st =>
      match ttSet tt result with
      | .ok (tt', ret) => .done ret tt' st
      | .error _ => .keyError st

/-! ## The scheduling loop of `search` (cdbsearch.py lines 429-484)

Per node, `search` computes for every legal move a final `newdepth` and
decides whether to schedule a child search, threading the `allowUnscored`
and `allowMaxExtension` flags through the loop in legal-move order. -/

/-- The per-node inputs of the scheduling loop. -/
structure SearchParams where
  evalDecay : Int
  depth : Int
  level : Int
  rootDepth : Int
  bestscore : Int
  worstscore : Int
  movesToSearch : Nat
  cdbPvToLeaf : Option Int
  scoredCount : Nat
deriving DecidableEq

/-- The outcome of the loop body for one legal move. -/
structure Decision where
  uci : String
  score : Option Int
  newdepth : Int
  scheduled : Bool
deriving DecidableEq

/-- The loop body of `search` for one legal move (cdbsearch.py lines 447-484):
computes the final `newdepth` and the scheduling decision, and updates the
`allowUnscored` and `allowMaxExtension` flags. -/
def stepMove (p : SearchParams) (au amx : Bool) (mv : String × Option Int) :
    Decision × Bool × Bool :=
  let score := mv.2
  let nd0 := move_depth p.evalDecay p.bestscore p.worstscore score p.depth
  let ext : Bool := decide (score = some p.bestscore) &&
    ((decide (p.movesToSearch = 1) && decide (depthAllowExts < p.depth)) ||
     (match p.cdbPvToLeaf with
      | some c => decide (nd0 < c)
      | none => false))
  let nd1 := if ext then nd0 + 1 else nd0
  let capped : Bool := decide (0 ≤ nd1) && decide (p.rootDepth + depthMaxExtension ≤ p.level)
  let prunedAtCap : Bool := !amx || score.isNone ||
    (match score with
     | some s => decide (s < p.bestscore)
     | none => false)
  let nd2 := if capped then (if prunedAtCap then -1 else nd1) else nd1
  let amx' := if capped && !prunedAtCap then false else amx
  let sched : Bool := (decide (0 ≤ nd2) && (score.isSome || au)) ||
    (score.isNone && au && decide (depthUnscored < p.depth - (p.scoredCount : Int)))
  let au' := if sched && score.isNone then false else au
  (⟨mv.1, score, nd2, sched⟩, au', amx')

/-- The full loop over the legal moves with their scores from the
`queryall` result, in iteration order. -/
def runLoop (p : SearchParams) (au amx : Bool) : List (String × Option Int) → List Decision
  | [] => []
  | mv :: rest =>
    (stepMove p au amx mv).1 ::
      runLoop p (stepMove p au amx mv).2.1 (stepMove p au amx mv).2.2 rest

/-- The scheduling decisions of one `search` invocation: the loop is
entered with `allowUnscored = (scoredCount >= CDB_SIEVED)` and
`allowMaxExtension = True` (cdbsearch.py lines 439-440). -/
def searchDecisions (p : SearchParams) (moves : List (String × Option Int)) : List Decision :=
  runLoop p (decide (CDB_SIEVED ≤ p.scoredCount)) true moves

/-! ## `pv_has_proven_mate` base cases (cdbsearch.py lines 177-182)

The body after the two base cases (lines 183-224) performs queries,
counter increments and recursive calls; it is abstracted by the `rest`
continuation, over which the base-case theorems are universally
quantified.  A value `(b, n)` is the returned boolean together with the
number of effects (queryall calls plus counter increments) performed. -/

def pv_has_proven_mate {Board : Type} (rest : Board → List String → Bool × Nat)
    (board : Board) (pv : List String) : Bool × Nat :=
  if pv = [] ∨ pv.getLast? ≠ some "checkmate" then (false, 0)
  else if pv = ["checkmate"] then (true, 0)
  else rest board pv

/-! ## Theorems -/

/-- C1: `move_depth(B, W, s, d)` returns `d + (s - B) // evalDecay - 1` for a
scored move (`d + 10^6 (s - B) - 1` when `evalDecay = 0`), hence exactly
`d - 1` when `s = B`; for an unscored move it returns
`min(0, d + (W - B) // evalDecay - 2)` (`min(0, d + 10^6 (W - B) - 2)` when
`evalDecay = 0`), which is never positive. -/
theorem move_depth_spec (e B W d s : Int) :
    (e ≠ 0 → move_depth e B W (some s) d = d + Int.fdiv (s - B) e - 1) ∧
    (e = 0 → move_depth e B W (some s) d = d + 10 ^ 6 * (s - B) - 1) ∧
    (move_depth e B W (some B) d = d - 1) ∧
    (e ≠ 0 → move_depth e B W none d = min 0 (d + Int.fdiv (W - B) e - 2)) ∧
    (e = 0 → move_depth e B W none d = min 0 (d + 10 ^ 6 * (W - B) - 2)) ∧
    move_depth e B W none d ≤ 0 := by
  refine ⟨fun h => ?_, fun h => ?_, ?_, fun h => ?_, fun h => ?_, ?_⟩
  · simp [move_depth, h]
  · simp [move_depth, h]
  · by_cases h : e = 0 <;> simp [move_depth, h, Int.zero_fdiv]
  · simp [move_depth, h]
  · simp [move_depth, h]
  · by_cases h : e = 0 <;> simp [move_depth, h]

/-- C1 witness. -/
theorem move_depth_spec_witness :
    move_depth 2 100 20 (some 80) 5 = 5 + Int.fdiv (80 - 100) 2 - 1 :=
  (move_depth_spec 2 100 20 5 80).1 (by decide)

/-- Helper: outside the cursed-win rewrite, a special score is shifted by its
sign, increasing its magnitude by exactly 1. -/
theorem scoreAdjust_special (cw : Bool) (s : Int) (h1 : CDB_SPECIAL ≤ |s|)
    (h2 : ¬(cw = false ∧ |s| ≤ CDB_CURSED)) :
    scoreAdjust cw s = s + Int.sign s ∧ |scoreAdjust cw s| = |s| + 1 := by
  have hs : s ≠ 0 := by
    intro h0
    rw [h0] at h1
    simp [CDB_SPECIAL] at h1
  have hcond : (!cw && decide (|s| ≤ CDB_CURSED)) = false := by
    rcases cw with _ | _ <;> simp_all
  have hval : scoreAdjust cw s = s + (if 0 ≤ s then 1 else -1) := by
    simp [scoreAdjust, h1, hcond]
  rcases lt_trichotomy s 0 with hneg | h0 | hpos
  · have h01 : ¬ 0 ≤ s := not_le.mpr hneg
    constructor
    · rw [hval, Int.sign_eq_neg_one_iff_neg.mpr hneg]
      simp [h01]
    · rw [hval]
      simp only [h01, if_false]
      rw [abs_of_neg hneg, abs_of_neg (by omega : s + -1 < 0)]
      ring
  · exact absurd h0 hs
  · have h01 : 0 ≤ s := le_of_lt hpos
    constructor
    · rw [hval, Int.sign_eq_one_iff_pos.mpr hpos]
      simp [h01]
    · rw [hval]
      simp only [h01, if_true]
      rw [abs_of_pos hpos, abs_of_pos (by omega : (0 : Int) < s + 1)]

/-- C3: in the "ok" branch of `queryall`, a reported score `s` is recorded as
0 when `|s| >= CDB_SPECIAL`, `cursedWins` is false and `|s| <= CDB_CURSED`;
as `s + sign(s)` (magnitude + 1) when `|s| >= CDB_SPECIAL` otherwise; and
unchanged when `|s| < CDB_SPECIAL`; and an "ok" reply records every reported
move through this adjustment. -/
theorem queryall_ok_scores (cw : Bool) (s : Int) (legal : List String)
    (ms : List (String × Int)) :
    (CDB_SPECIAL ≤ |s| → cw = false → |s| ≤ CDB_CURSED → scoreAdjust cw s = 0) ∧
    (CDB_SPECIAL ≤ |s| → ¬(cw = false ∧ |s| ≤ CDB_CURSED) →
      scoreAdjust cw s = s + Int.sign s ∧ |scoreAdjust cw s| = |s| + 1) ∧
    (|s| < CDB_SPECIAL → scoreAdjust cw s = s) ∧
    queryall cw none false legal [.rok ms] =
      .done ⟨some 0, ms.map (fun p => (p.1, scoreAdjust cw p.2))⟩
        (some ⟨some 0, ms.map (fun p => (p.1, scoreAdjust cw p.2))⟩) ⟨1, 0, 1, 1⟩ := by
  refine ⟨fun h1 h2 h3 => ?_, fun h1 h2 => scoreAdjust_special cw s h1 h2, fun h1 => ?_, rfl⟩
  · simp [scoreAdjust, h1, h2, h3]
  · simp [scoreAdjust, not_le.mpr h1]

/-- C3 witness. -/
theorem queryall_ok_scores_witness : scoreAdjust false 15000 = 0 :=
  (queryall_ok_scores false 15000 [] []).1 (by decide) rfl (by decide)

/-- C8 counterexample: a cursed-win score of exactly CDB_SPECIAL is rewritten
to 0 when `cursedWins` is false, so its magnitude is not increased by 1. -/
theorem adapter_special_cex :
    scoreAdjust false 10000 = 0 ∧ ¬ |scoreAdjust false 10000| = |(10000 : Int)| + 1 := by
  decide

/-- C8 amended: for every score `s` with `|s| >= CDB_SPECIAL`, when
`cursedWins` is true or `|s| > CDB_CURSED`, the recorded score's magnitude is
strictly increased by 1; when `cursedWins` is false and `|s| <= CDB_CURSED`
the score is rewritten to 0 instead. -/
theorem adapter_special_magnitude (cw : Bool) (s : Int) (h1 : CDB_SPECIAL ≤ |s|)
    (h2 : cw = true ∨ CDB_CURSED < |s|) : |scoreAdjust cw s| = |s| + 1 := by
  refine (scoreAdjust_special cw s h1 ?_).2
  rintro ⟨hcw, habs⟩
  rcases h2 with h2 | h2
  · rw [h2] at hcw
    exact Bool.noConfusion hcw
  · exact absurd habs (not_le.mpr h2)

/-- C8 witness. -/
theorem adapter_special_magnitude_witness :
    |scoreAdjust true 10000| = |(10000 : Int)| + 1 :=
  adapter_special_magnitude true 10000 (by decide) (Or.inl rfl)

/-- Helper: iterated `ttSet` starting from a stored record with a depth field,
over records all carrying depth fields, never errors and ends with the
running maximum depth. -/
theorem ttSetList_from (rs : List ScoredMoves) :
    ∀ (v : ScoredMoves) (vd : Int), v.depth = some vd →
      (∀ x ∈ rs, (x.depth).isSome = true) →
      ∃ e, ttSetList (some v) rs = .ok (some e) ∧ e.depth = some (maxDepthFrom vd rs) := by
  induction rs with
  | nil =>
    intro v vd hv _
    exact ⟨v, rfl, by simpa [maxDepthFrom] using hv⟩
  | cons r rest ih =>
    intro v vd hv hall
    obtain ⟨rd, hrd⟩ := Option.isSome_iff_exists.mp (hall r (by simp))
    have hrest : ∀ x ∈ rest, (x.depth).isSome = true := fun x hx => hall x (by simp [hx])
    have hfold : maxDepthFrom vd (r :: rest) = maxDepthFrom (max vd (depthOf r)) rest := rfl
    have hd : depthOf r = rd := by simp [depthOf, hrd]
    by_cases h : vd ≤ rd
    · have hstep : ttSetList (some v) (r :: rest) = ttSetList (some r) rest := by
        simp [ttSetList, ttSet, hv, hrd, h]
      obtain ⟨e, he, hde⟩ := ih r rd hrd hrest
      refine ⟨e, hstep ▸ he, ?_⟩
      rw [hde, hfold, hd, max_eq_right h]
    · have hstep : ttSetList (some v) (r :: rest) = ttSetList (some v) rest := by
        simp [ttSetList, ttSet, hv, hrd, h]
      obtain ⟨e, he, hde⟩ := ih v vd hv hrest
      refine ⟨e, hstep ▸ he, ?_⟩
      rw [hde, hfold, hd, max_eq_left (le_of_not_le h)]

/-- C2: `TT.set(epd, r)` stores `r` exactly when no entry exists or the
existing entry's depth is at most `r`'s depth, returns the entry stored
after the call, and over any sequence of sets the stored depth is the
maximum of all depths ever set, hence never decreases. -/
theorem tt_set_spec :
    (∀ r : ScoredMoves, ttSet none r = .ok (some r, r)) ∧
    (∀ (v r : ScoredMoves) (vd rd : Int), v.depth = some vd → r.depth = some rd →
      (vd ≤ rd → ttSet (some v) r = .ok (some r, r)) ∧
      (¬ vd ≤ rd → ttSet (some v) r = .ok (some v, v)) ∧
      ∃ e, ttSet (some v) r = .ok (some e, e) ∧ vd ≤ depthOf e ∧ rd ≤ depthOf e) ∧
    (∀ rs : List ScoredMoves, rs ≠ [] → (∀ x ∈ rs, (x.depth).isSome = true) →
      ∃ e, ttSetList none rs = .ok (some e) ∧ e.depth = some (maxDepth rs)) := by
  refine ⟨fun r => rfl, fun v r vd rd hv hr => ⟨fun h => ?_, fun h => ?_, ?_⟩, ?_⟩
  · simp [ttSet, hv, hr, h]
  · simp [ttSet, hv, hr, h]
  · by_cases h : vd ≤ rd
    · exact ⟨r, by simp [ttSet, hv, hr, h], by simp [depthOf, hr, h], by simp [depthOf, hr]⟩
    · exact ⟨v, by simp [ttSet, hv, hr, h], by simp [depthOf, hv],
        by simp [depthOf, hv]; omega⟩
  · rintro (_ | ⟨r, rest⟩) hne hall
    · exact absurd rfl hne
    · obtain ⟨rd, hrd⟩ := Option.isSome_iff_exists.mp (hall r (by simp))
      have hstep : ttSetList none (r :: rest) = ttSetList (some r) rest := rfl
      obtain ⟨e, he, hde⟩ :=
        ttSetList_from rest r rd hrd (fun x hx => hall x (by simp [hx]))
      refine ⟨e, hstep ▸ he, ?_⟩
      rw [hde]
      have : depthOf r = rd := by simp [depthOf, hrd]
      simp [maxDepth, this]

/-- C2 witness. -/
theorem tt_set_spec_witness :
    ttSet (some ⟨some 3, []⟩) ⟨some 5, []⟩ = .ok (some ⟨some 5, []⟩, ⟨some 5, []⟩) :=
  (tt_set_spec.2.1 ⟨some 3, []⟩ ⟨some 5, []⟩ 3 5 rfl rfl).1 (by decide)

/-- C7 (code bug): after an "invalid board" reply has stored the empty
sentinel `{}` in the TT, a later `TT.set` for that epd raises `KeyError`
(`value["depth"]` on the sentinel), and symmetrically storing the sentinel
over an existing entry raises; a skip-TT `queryall` receiving "ok" for an
epd whose TT entry is the sentinel therefore ends in `KeyError` instead of
returning, contradicting "no error exits the engine". -/
theorem tt_set_sentinel_raises :
    ttSet (some ⟨none, []⟩) ⟨some 0, [("e2e4", 1)]⟩ = .error () ∧
    ttSet (some ⟨some 3, [("e2e4", 1)]⟩) ⟨none, []⟩ = .error () ∧
    queryall false (some ⟨none, []⟩) true ["e2e4"] [.rok [("e2e4", 50)]] =
      .keyError ⟨1, 0, 1, 1⟩ :=
  ⟨rfl, rfl, rfl⟩

/-- C9: with `skipTT` false and the TT holding an entry for the epd,
`queryall` returns exactly that entry, makes no HTTP request, leaves the TT
unchanged and increments only `count_queryall`. -/
theorem queryall_tt_hit (cw : Bool) (r : ScoredMoves) (legal : List String)
    (rs : List Reply) :
    queryall cw (some r) false legal rs = .done r (some r) ⟨1, 0, 0, 0⟩ := rfl

/-- Helper: across the whole retry loop, `count_enqueued` is incremented at
most once: never when the `enqueued` flag is already set. -/
theorem queryallLoop_enq_le (cw : Bool) (legal : List String) :
    ∀ (rs : List Reply) (result : ScoredMoves) (enq : Bool) (st : QAStats),
      (queryallLoop cw legal result enq st rs).stats.enq ≤
        st.enq + (if enq then 0 else 1) := by
  intro rs
  induction rs with
  | nil =>
    intro result enq st
    simp [queryallLoop, LoopOut.stats]
  | cons r rest ih =>
    intro result enq st
    cases r with
    | rfail => simpa [queryallLoop] using ih result enq _
    | rnoStatus => simpa [queryallLoop] using ih result enq _
    | runknown q =>
      have henq : ∀ st' : QAStats, st'.enq = st.enq + (if enq then 0 else 1) →
          (queryallLoop cw legal result true st' rest).stats.enq ≤
            st.enq + (if enq then 0 else 1) := by
        intro st' h
        simpa [h] using ih result true st'
      cases q with
      | qfail =>
        simpa [queryallLoop] using henq _ (by cases enq <;> rfl)
      | qempty =>
        simp [queryallLoop, LoopOut.stats]
        cases enq <;> simp
      | qother =>
        simpa [queryallLoop] using henq _ (by cases enq <;> rfl)
    | rrateLimit => simpa [queryallLoop] using ih result enq _
    | rok ms => simp [queryallLoop, LoopOut.stats]
    | rokMalformed => simpa [queryallLoop] using ih ⟨some 0, []⟩ enq _
    | rmate => simp [queryallLoop, LoopOut.stats]
    | rinvalid => simp [queryallLoop, LoopOut.stats]
    | rother => simpa [queryallLoop] using ih result enq _

/-- Helper: once the `enqueued` flag is set, a run of "unknown, re-enqueued"
replies followed by an "unknown, queue returns {}" reply ends the loop with
the manufactured 1cp result and no further `count_enqueued` increment. -/
theorem queryallLoop_unknown_run (cw : Bool) (legal : List String) :
    ∀ (n : Nat) (result : ScoredMoves) (st : QAStats),
      queryallLoop cw legal result true st
        (List.replicate n (.runknown .qother) ++ [.runknown .qempty]) =
        .found { result with moves := result.moves ++ legal.map (fun u => (u, 1)) }
          { st with calls := st.calls + (2 * n + 2) } := by
  intro n
  induction n with
  | zero =>
    intro result st
    simp [queryallLoop]
  | succ n ih =>
    intro result st
    rw [List.replicate_succ, List.cons_append]
    show queryallLoop cw legal result true { st with calls := st.calls + 1 + 1 }
      (List.replicate n (.runknown .qother) ++ [.runknown .qempty]) = _
    rw [ih]
    have : st.calls + 1 + 1 + (2 * n + 2) = st.calls + (2 * (n + 1) + 2) := by ring
    rw [this]

/-- C4: on status "unknown" `count_enqueued` is incremented exactly once per
`queryall` invocation however often "unknown" recurs, and `queue` is called;
when `queue` returns `{}` the loop immediately returns the result scoring
every legal move 1 (depth field 0); otherwise the loop retries `queryall`
with the `enqueued` flag set. -/
theorem queryall_unknown_spec (cw : Bool) (legal : List String) :
    (∀ rs : List Reply, (queryall cw none false legal rs).stats.enq ≤ 1) ∧
    (∀ (result : ScoredMoves) (enq : Bool) (st : QAStats) (rs : List Reply),
      queryallLoop cw legal result enq st (.runknown .qempty :: rs) =
        .found { result with moves := result.moves ++ legal.map (fun u => (u, 1)) }
          { st with enq := st.enq + (if enq then 0 else 1), calls := st.calls + 2 }) ∧
    (∀ (result : ScoredMoves) (enq : Bool) (st : QAStats) (rs : List Reply),
      queryallLoop cw legal result enq st (.runknown .qother :: rs) =
        queryallLoop cw legal result true
          { st with enq := st.enq + (if enq then 0 else 1), calls := st.calls + 2 } rs) ∧
    (∀ n : Nat,
      queryall cw none false legal
          (List.replicate n (.runknown .qother) ++ [.runknown .qempty]) =
        .done ⟨some 0, legal.map (fun u => (u, 1))⟩
          (some ⟨some 0, legal.map (fun u => (u, 1))⟩) ⟨1, 1, 1, 2 * n + 2⟩) := by
  refine ⟨fun rs => ?_, fun result enq st rs => ?_, fun result enq st rs => ?_, fun n => ?_⟩
  · have hq : queryall cw none false legal rs =
        match queryallLoop cw legal ⟨some 0, []⟩ false ⟨1, 0, 1, 0⟩ rs with
        | .outOfReplies st => .outOfReplies st
        | .found result st =>
          match ttSet none result with
          | .ok (tt', ret) => .done ret tt' st
          | .error _ => .keyError st := rfl
    rw [hq]
    have hle := queryallLoop_enq_le cw legal rs ⟨some 0, []⟩ false ⟨1, 0, 1, 0⟩
    rcases hL : queryallLoop cw legal ⟨some 0, []⟩ false ⟨1, 0, 1, 0⟩ rs with st | ⟨result, st⟩
    · rw [hL] at hle
      simpa [LoopOut.stats, QAOut.stats] using hle
    · rw [hL] at hle
      simpa [LoopOut.stats, QAOut.stats, ttSet] using hle
  · cases enq <;> rfl
  · cases enq <;> rfl
  · cases n with
    | zero => rfl
    | succ n =>
      have hq : queryall cw none false legal
          (List.replicate (n + 1) (.runknown .qother) ++ [.runknown .qempty]) =
          match queryallLoop cw legal ⟨some 0, []⟩ false ⟨1, 0, 1, 0⟩
              (List.replicate (n + 1) (.runknown .qother) ++ [.runknown .qempty]) with
          | .outOfReplies st => .outOfReplies st
          | .found result st =>
            match ttSet none result with
            | .ok (tt', ret) => .done ret tt' st
            | .error _ => .keyError st := rfl
      rw [hq, List.replicate_succ, List.cons_append]
      show (match queryallLoop cw legal ⟨some 0, []⟩ true ⟨1, 1, 1, 2⟩
          (List.replicate n (.runknown .qother) ++ [.runknown .qempty]) with
        | LoopOut.outOfReplies st => QAOut.outOfReplies st
        | LoopOut.found result st =>
          match ttSet none result with
          | .ok (tt', ret) => QAOut.done ret tt' st
          | .error _ => QAOut.keyError st) = _
      rw [queryallLoop_unknown_run cw legal n ⟨some 0, []⟩ ⟨1, 1, 1, 2⟩]
      show QAOut.done ⟨some 0, [] ++ legal.map (fun u => (u, 1))⟩
          (some ⟨some 0, [] ++ legal.map (fun u => (u, 1))⟩) ⟨1, 1, 1, 2 + (2 * n + 2)⟩ = _
      rw [List.nil_append]
      have : 2 + (2 * n + 2) = 2 * (n + 1) + 2 := by ring
      rw [this]

/-- Helper: the decision for a move carries the move and its score unchanged. -/
theorem stepMove_score (p : SearchParams) (au amx : Bool) (mv : String × Option Int) :
    (stepMove p au amx mv).1.score = mv.2 := rfl

/-- Helper: at the extension cap, once `allowMaxExtension` is consumed every
further move's final `newdepth` is negative and the flag stays consumed. -/
theorem stepMove_amx_false (p : SearchParams)
    (hlev : p.rootDepth + depthMaxExtension ≤ p.level) (au : Bool)
    (mv : String × Option Int) :
    (stepMove p au false mv).1.newdepth ≤ -1 ∧ (stepMove p au false mv).2.2 = false := by
  simp only [stepMove, Bool.not_false, Bool.true_or, decide_eq_true hlev, Bool.and_true,
    if_true]
  constructor
  · simp only [Bool.and_eq_true, Bool.or_eq_true, decide_eq_true_eq]
    split_ifs <;> omega
  · simp

/-- Helper: at the extension cap with `allowMaxExtension` still available, a
move ending with nonnegative `newdepth` must be a scored move with score at
least `bestscore`, and it consumes the flag; a move ending negative leaves
the flag available. -/
theorem stepMove_amx_true (p : SearchParams)
    (hlev : p.rootDepth + depthMaxExtension ≤ p.level)
    (au : Bool) (mv : String × Option Int) :
    ((stepMove p au true mv).1.newdepth < 0 → (stepMove p au true mv).2.2 = true) ∧
    (0 ≤ (stepMove p au true mv).1.newdepth →
      (stepMove p au true mv).2.2 = false ∧ ∃ s, mv.2 = some s ∧ p.bestscore ≤ s) := by
  obtain ⟨u, sc⟩ := mv
  cases sc with
  | none =>
    constructor
    · intro _
      simp [stepMove]
    · intro h
      exfalso
      revert h
      simp only [stepMove, decide_eq_true hlev, Bool.and_true, Bool.not_true,
        Option.isNone_none, Bool.false_or, Bool.true_or, Bool.or_true]
      simp only [Bool.and_eq_true, Bool.or_eq_true, decide_eq_true_eq]
      split_ifs <;> omega
  | some s =>
    by_cases hlt : s < p.bestscore
    · constructor
      · intro _
        simp [stepMove, hlt]
      · intro h
        exfalso
        revert h
        simp only [stepMove, decide_eq_true hlev, decide_eq_true hlt, Bool.and_true,
          Bool.not_true, Option.isNone_some, Bool.false_or, Bool.or_true, Bool.and_false]
        simp only [Bool.and_eq_true, Bool.or_eq_true, decide_eq_true_eq]
        split_ifs <;> omega
    · have hd : decide (s < p.bestscore) = false := decide_eq_false hlt
      constructor
      · intro h
        revert h
        simp only [stepMove, decide_eq_true hlev, hd, Bool.and_true, Bool.not_true,
          Bool.not_false, Option.isNone_some, Bool.false_or, Bool.or_false, if_false]
        simp only [Bool.and_eq_true, Bool.or_eq_true, decide_eq_true_eq]
        split_ifs <;> intros <;> (try simp_all) <;> omega
      · intro h
        refine ⟨?_, s, rfl, le_of_not_lt hlt⟩
        revert h
        simp only [stepMove, decide_eq_true hlev, hd, Bool.and_true, Bool.not_true,
          Bool.not_false, Option.isNone_some, Bool.false_or, Bool.or_false, if_false]
        simp only [Bool.and_eq_true, Bool.or_eq_true, decide_eq_true_eq]
        split_ifs <;> intros <;> (try simp_all) <;> omega

/-- Helper: with the flag consumed at the cap, every remaining decision has
negative `newdepth`. -/
theorem runLoop_amx_false (p : SearchParams)
    (hlev : p.rootDepth + depthMaxExtension ≤ p.level) :
    ∀ (moves : List (String × Option Int)) (au : Bool),
      ∀ d ∈ runLoop p au false moves, d.newdepth ≤ -1 := by
  intro moves
  induction moves with
  | nil =>
    intro au d hd
    simp [runLoop] at hd
  | cons mv rest ih =>
    intro au d hd
    rw [runLoop, (stepMove_amx_false p hlev au mv).2] at hd
    rcases List.mem_cons.mp hd with h | h
    · rw [h]
      exact (stepMove_amx_false p hlev au mv).1
    · exact ih _ d h

/-- Helper: at the cap, at most one decision of the loop carries a
nonnegative `newdepth`, and it belongs to a move scoring `bestscore`. -/
theorem runLoop_cap_unique (p : SearchParams)
    (hlev : p.rootDepth + depthMaxExtension ≤ p.level) :
    ∀ (moves : List (String × Option Int)) (au : Bool),
      (∀ x ∈ moves, x.2.getD p.bestscore ≤ p.bestscore) →
      ((runLoop p au true moves).countP (fun d => decide (0 ≤ d.newdepth)) ≤ 1 ∧
        ∀ d ∈ runLoop p au true moves, 0 ≤ d.newdepth → d.score = some p.bestscore) := by
  intro moves
  induction moves with
  | nil =>
    intro au _
    simp [runLoop]
  | cons mv rest ih =>
    intro au hbest
    by_cases hnd : 0 ≤ (stepMove p au true mv).1.newdepth
    · obtain ⟨hamx, s, hs, hges⟩ := (stepMove_amx_true p hlev au mv).2 hnd
      have hle : s ≤ p.bestscore := by
        have := hbest mv (by simp)
        rwa [hs, Option.getD_some] at this
      have hsb : s = p.bestscore := le_antisymm hle hges
      have hscore : (stepMove p au true mv).1.score = some p.bestscore := by
        rw [stepMove_score, hs, hsb]
      have htail0 : (runLoop p (stepMove p au true mv).2.1 false rest).countP
          (fun d => decide (0 ≤ d.newdepth)) = 0 := by
        rw [List.countP_eq_zero]
        intro d hd
        have := runLoop_amx_false p hlev rest _ d hd
        simpa using by omega
      constructor
      · rw [runLoop, hamx, List.countP_cons, htail0]
        split <;> omega
      · intro d hd hd0
        rw [runLoop, hamx] at hd
        rcases List.mem_cons.mp hd with h | h
        · rw [h]
          exact hscore
        · have := runLoop_amx_false p hlev rest _ d h
          omega
    · have hamx : (stepMove p au true mv).2.2 = true :=
        (stepMove_amx_true p hlev au mv).1 (by omega)
      have hrest : ∀ x ∈ rest, x.2.getD p.bestscore ≤ p.bestscore :=
        fun x hx => hbest x (by simp [hx])
      have hih := ih (stepMove p au true mv).2.1 hrest
      constructor
      · rw [runLoop, hamx, List.countP_cons]
        have hp : (decide (0 ≤ (stepMove p au true mv).1.newdepth)) = false := by
          simpa using hnd
        rw [hp]
        simpa using hih.1
      · intro d hd hd0
        rw [runLoop, hamx] at hd
        rcases List.mem_cons.mp hd with h | h
        · rw [h] at hd0
          exact absurd hd0 hnd
        · exact hih.2 d h hd0

/-- C5: in a `search` invocation at `level >= rootDepth + depthMaxExtension`,
at most one legal move ends with `newdepth >= 0` at the scheduling point,
that move's score equals the node's `bestscore`, and every other move ends
with `newdepth <= -1`. -/
theorem search_depth_cap (p : SearchParams) (moves : List (String × Option Int))
    (hlev : p.rootDepth + depthMaxExtension ≤ p.level)
    (hbest : ∀ x ∈ moves, x.2.getD p.bestscore ≤ p.bestscore) :
    ((searchDecisions p moves).countP (fun d => decide (0 ≤ d.newdepth)) ≤ 1) ∧
    (∀ d ∈ searchDecisions p moves, 0 ≤ d.newdepth → d.score = some p.bestscore) ∧
    (∀ d ∈ searchDecisions p moves, ¬ 0 ≤ d.newdepth → d.newdepth ≤ -1) := by
  have h := runLoop_cap_unique p hlev moves (decide (CDB_SIEVED ≤ p.scoredCount)) hbest
  exact ⟨h.1, h.2, fun d _ hd => by omega⟩

/-- C5 witness. -/
theorem search_depth_cap_witness :
    ((searchDecisions ⟨2, 5, 11, 1, 100, 20, 2, none, 2⟩
        [("e2e4", some 100), ("d2d4", some 20), ("g1f3", none)]).countP
      (fun d => decide (0 ≤ d.newdepth)) ≤ 1) ∧
    (∀ d ∈ searchDecisions ⟨2, 5, 11, 1, 100, 20, 2, none, 2⟩
        [("e2e4", some 100), ("d2d4", some 20), ("g1f3", none)],
      0 ≤ d.newdepth → d.score = some 100) :=
  have h := search_depth_cap ⟨2, 5, 11, 1, 100, 20, 2, none, 2⟩
    [("e2e4", some 100), ("d2d4", some 20), ("g1f3", none)] (by decide) (by decide)
  ⟨h.1, h.2.1⟩

/-- Helper: with `allowUnscored` false it stays false. -/
theorem stepMove_au_false (p : SearchParams) (amx : Bool) (mv : String × Option Int) :
    (stepMove p false amx mv).2.1 = false := by
  simp [stepMove]

/-- Helper: with `allowUnscored` false an unscored move is never scheduled. -/
theorem stepMove_au_false_unscored (p : SearchParams) (amx : Bool) (u : String) :
    (stepMove p false amx (u, none)).1.scheduled = false := by
  simp [stepMove]

/-- Helper: a scored move leaves `allowUnscored` unchanged. -/
theorem stepMove_scored_au (p : SearchParams) (au amx : Bool) (u : String) (s : Int) :
    (stepMove p au amx (u, some s)).2.1 = au := by
  simp [stepMove]

/-- Helper: scheduling an unscored move consumes `allowUnscored`. -/
theorem stepMove_unscored_consumes (p : SearchParams) (amx : Bool) (u : String)
    (hsch : (stepMove p true amx (u, none)).1.scheduled = true) :
    (stepMove p true amx (u, none)).2.1 = false := by
  simp only [stepMove] at hsch ⊢
  rw [hsch]
  simp

/-- Helper: an unscored move that is not scheduled keeps `allowUnscored`. -/
theorem stepMove_unscored_keeps (p : SearchParams) (amx : Bool) (u : String)
    (hsch : (stepMove p true amx (u, none)).1.scheduled = false) :
    (stepMove p true amx (u, none)).2.1 = true := by
  simp only [stepMove] at hsch ⊢
  rw [hsch]
  simp

/-- Helper: with `allowUnscored` available and
`depth - scoredCount > depthUnscored`, an unscored move is scheduled
regardless of its `newdepth`. -/
theorem stepMove_forced_unscored (p : SearchParams) (amx : Bool) (u : String)
    (hforce : depthUnscored < p.depth - (p.scoredCount : Int)) :
    (stepMove p true amx (u, none)).1.scheduled = true := by
  simp [stepMove, hforce]

/-- Helper: with `allowUnscored` false, every scheduled decision of the loop
belongs to a scored move. -/
theorem runLoop_au_false_sched (p : SearchParams) :
    ∀ (moves : List (String × Option Int)) (amx : Bool),
      ∀ d ∈ runLoop p false amx moves, d.scheduled = true → d.score.isSome = true := by
  intro moves
  induction moves with
  | nil =>
    intro amx d hd
    simp [runLoop] at hd
  | cons mv rest ih =>
    intro amx d hd hsch
    rw [runLoop, stepMove_au_false] at hd
    rcases List.mem_cons.mp hd with h | h
    · obtain ⟨u, sc⟩ := mv
      cases sc with
      | none =>
        subst h
        rw [stepMove_au_false_unscored] at hsch
        simp at hsch
      | some s =>
        subst h
        rw [stepMove_score]
        rfl
    · exact ih _ d h hsch

/-- Helper: across the loop, at most one scheduled decision is unscored:
one if `allowUnscored` is still available, none otherwise. -/
theorem runLoop_unscored_count (p : SearchParams) :
    ∀ (moves : List (String × Option Int)) (au amx : Bool),
      (runLoop p au amx moves).countP (fun d => d.scheduled && d.score.isNone) ≤
        if au then 1 else 0 := by
  intro moves
  induction moves with
  | nil =>
    intro au amx
    simp [runLoop]
  | cons mv rest ih =>
    intro au amx
    rw [runLoop, List.countP_cons]
    obtain ⟨u, sc⟩ := mv
    cases sc with
    | none =>
      cases au with
      | false =>
        rw [stepMove_au_false]
        have hp : ((stepMove p false amx (u, none)).1.scheduled &&
            (stepMove p false amx (u, none)).1.score.isNone) = false := by
          rw [stepMove_au_false_unscored]
          rfl
        rw [hp]
        simpa using ih false _
      | true =>
        by_cases hsch : (stepMove p true amx (u, none)).1.scheduled = true
        · rw [stepMove_unscored_consumes p amx u hsch]
          have htail := ih false (stepMove p true amx (u, none)).2.2
          have hp : ((stepMove p true amx (u, none)).1.scheduled &&
              (stepMove p true amx (u, none)).1.score.isNone) = true := by
            rw [hsch, stepMove_score]
            rfl
          rw [hp]
          simp only [Bool.false_eq_true, if_false] at htail
          simp only [if_pos rfl]
          omega
        · have hsf : (stepMove p true amx (u, none)).1.scheduled = false :=
            Bool.eq_false_iff.mpr hsch
          have hp : ((stepMove p true amx (u, none)).1.scheduled &&
              (stepMove p true amx (u, none)).1.score.isNone) = false := by
            rw [hsf]
            rfl
          rw [hp, stepMove_unscored_keeps p amx u hsf]
          simpa using ih true _
    | some s =>
      rw [stepMove_scored_au]
      have hp : ((stepMove p au amx (u, some s)).1.scheduled &&
          (stepMove p au amx (u, some s)).1.score.isNone) = false := by
        rw [stepMove_score]
        simp
      rw [hp]
      simpa using ih au _

/-- Helper: with `allowUnscored` available, the forcing condition and an
unscored legal move present, at least one unscored move is scheduled. -/
theorem runLoop_forced_unscored (p : SearchParams)
    (hforce : depthUnscored < p.depth - (p.scoredCount : Int)) :
    ∀ (moves : List (String × Option Int)) (amx : Bool),
      (∃ x ∈ moves, x.2 = none) →
      1 ≤ (runLoop p true amx moves).countP (fun d => d.scheduled && d.score.isNone) := by
  intro moves
  induction moves with
  | nil =>
    intro amx hex
    simp at hex
  | cons mv rest ih =>
    intro amx hex
    rw [runLoop, List.countP_cons]
    obtain ⟨u, sc⟩ := mv
    cases sc with
    | none =>
      have hp : ((stepMove p true amx (u, none)).1.scheduled &&
          (stepMove p true amx (u, none)).1.score.isNone) = true := by
        rw [stepMove_forced_unscored p amx u hforce, stepMove_score]
        rfl
      rw [hp]
      have hone : (if (true = true) then (1 : Nat) else 0) = 1 := by decide
      rw [hone]
      omega
    | some s =>
      obtain ⟨x, hx, hxnone⟩ := hex
      rcases List.mem_cons.mp hx with h | h
      · rw [h] at hxnone
        simp at hxnone
      · rw [stepMove_scored_au]
        have := ih ((stepMove p true amx (u, some s)).2.2) ⟨x, h, hxnone⟩
        omega

/-- C6: per `search` invocation at most one unscored move is scheduled (for
all `evalDecay` and `depth`); none unless `scoredCount >= CDB_SIEVED`; and
when additionally `depth - scoredCount > depthUnscored` and an unscored
legal move exists, exactly one unscored move is scheduled regardless of its
`newdepth`. -/
theorem search_unscored_bound (p : SearchParams) (moves : List (String × Option Int)) :
    ((searchDecisions p moves).countP (fun d => d.scheduled && d.score.isNone) ≤ 1) ∧
    (p.scoredCount < CDB_SIEVED →
      ∀ d ∈ searchDecisions p moves, d.scheduled = true → d.score.isSome = true) ∧
    (CDB_SIEVED ≤ p.scoredCount → depthUnscored < p.depth - (p.scoredCount : Int) →
      (∃ x ∈ moves, x.2 = none) →
      (searchDecisions p moves).countP (fun d => d.scheduled && d.score.isNone) = 1) := by
  refine ⟨?_, fun hlt => ?_, fun hge hforce hex => ?_⟩
  · have := runLoop_unscored_count p moves (decide (CDB_SIEVED ≤ p.scoredCount)) true
    unfold searchDecisions
    split at this <;> omega
  · have hdec : decide (CDB_SIEVED ≤ p.scoredCount) = false := by
      simpa using Nat.not_le.mpr hlt
    unfold searchDecisions
    rw [hdec]
    exact runLoop_au_false_sched p moves true
  · have hdec : decide (CDB_SIEVED ≤ p.scoredCount) = true := by simpa using hge
    have h1 := runLoop_unscored_count p moves (decide (CDB_SIEVED ≤ p.scoredCount)) true
    rw [hdec] at h1
    have hone : (if (true = true) then (1 : Nat) else 0) = 1 := by decide
    rw [hone] at h1
    have h2 := runLoop_forced_unscored p hforce moves true hex
    unfold searchDecisions
    rw [hdec]
    omega

/-- C6 witness. -/
theorem search_unscored_bound_witness :
    (searchDecisions ⟨2, 31, 0, 1, 10, 10, 1, none, 5⟩
        [("a2a3", some 10), ("b2b3", none), ("c2c3", none)]).countP
      (fun d => d.scheduled && d.score.isNone) = 1 :=
  (search_unscored_bound ⟨2, 31, 0, 1, 10, 10, 1, none, 5⟩
      [("a2a3", some 10), ("b2b3", none), ("c2c3", none)]).2.2
    (by decide) (by decide) ⟨("b2b3", none), by decide, rfl⟩

/-- C10: the base cases of `pv_has_proven_mate` depend only on `pv`: for
every board (and whatever the rest of the body would do), an empty `pv` or a
`pv` not ending in "checkmate" returns `False`, and `pv = ["checkmate"]`
returns `True`, in all cases with zero queries and counter changes. -/
theorem pv_has_proven_mate_base (Board : Type) (rest : Board → List String → Bool × Nat)
    (board : Board) (pv : List String) :
    (pv = [] → pv_has_proven_mate rest board pv = (false, 0)) ∧
    (pv.getLast? ≠ some "checkmate" → pv_has_proven_mate rest board pv = (false, 0)) ∧
    (pv = ["checkmate"] → pv_has_proven_mate rest board pv = (true, 0)) := by
  refine ⟨fun h => ?_, fun h => ?_, fun h => ?_⟩
  · rw [pv_has_proven_mate, if_pos (Or.inl h)]
  · rw [pv_has_proven_mate, if_pos (Or.inr h)]
  · subst h
    rfl

/-- C10 witness. -/
theorem pv_has_proven_mate_base_witness :
    pv_has_proven_mate (fun _ _ => (true, 7)) () ["e2e4"] = (false, 0) ∧
    pv_has_proven_mate (fun _ _ => (false, 7)) () ["checkmate"] = (true, 0) :=
  ⟨(pv_has_proven_mate_base Unit (fun _ _ => (true, 7)) () ["e2e4"]).2.1 (by decide),
   (pv_has_proven_mate_base Unit (fun _ _ => (false, 7)) () ["checkmate"]).2.2 rfl⟩

end Cdbexplore